import Mathlib

/-!
# Verification of the P2P-File-Transfer download core

A shallow embedding, in Lean 4, of the piece-level data model and the
operations of the `P2P-File-Transfer` BitTorrent client:

* `src/core/torrent_info.rs` — the metainfo model (`Torrent`, `Info`,
  `FileNode`) and the functions `total_length`, `get_piece_hash`,
  `calculate_piece_size`;
* `src/core/manager.rs` — the piece ledger (`TorrentManager`) with
  `pick_next_piece`, `mark_piece_complete`, `reset_piece`, `is_complete`,
  and the multi-file span computation of `write_piece_to_disk`;
* `src/network/message.rs` — the wire codec (`Message::serialize`,
  `Message::read`);
* `src/network/mod.rs` — the peer-session bitfield decoding and the
  inline on-match multi-file write of `run_peer_session`.

Machine integers are modelled as `Nat`/`Int` with the narrowing casts of
the source made explicit (`u64ToU32`, `i64ToU32`, …).  File-system
effects are modelled by computing the list of `(path, offset, bytes)`
writes an operation performs.
-/

namespace P2P

/-- A byte, kept as a `Nat`; well-formed byte streams have entries `< 256`. -/
abbrev Byte := Nat

/-! ## Machine-integer casts

Rust `as`-casts used by the source, made explicit.  `usize`/`u64` values
are `Nat`, `i64` values are `Int`; each cast states exactly the
truncation/wrap the source performs. -/

/-- Rust `u64 as i64`: two's-complement reinterpretation. -/
def u64ToI64 (n : Nat) : Int :=
  if n < 2 ^ 63 then (n : Int) else (n : Int) - 2 ^ 64

/-- Rust `u64 as u32` (also `usize as u32` on 64-bit): keep the low 32 bits. -/
def u64ToU32 (n : Nat) : Nat := n % 2 ^ 32

/-- Rust `i64 as u32`: keep the low 32 bits of the two's-complement form. -/
def i64ToU32 (z : Int) : Nat := (z % 2 ^ 32).toNat

/-- Rust `i64 as u64`: two's-complement reinterpretation. -/
def i64ToU64 (z : Int) : Nat := (z % 2 ^ 64).toNat

/-! ## Metainfo model (`src/core/torrent_info.rs`) -/

/-- One entry of a multi-file torrent (`FileNode` in `torrent_info.rs`):
a length in bytes (`i64`) and a path as ordered components. -/
structure FileNode where
  length : Int
  path : List String
deriving DecidableEq, Repr

/-- The `info` dictionary (`Info` in `torrent_info.rs`). `piece_length`
is a `usize`, `pieces` the concatenation of 20-byte SHA-1 hashes, and
exactly one of `length` / `files` is present in a well-formed torrent. -/
structure Info where
  name : String
  piece_length : Nat
  pieces : List Byte
  length : Option Int
  files : Option (List FileNode)
deriving DecidableEq, Repr

/-- A parsed torrent (`Torrent` in `torrent_info.rs`). -/
structure Torrent where
  announce : String
  announce_list : Option (List (List String))
  info : Info
deriving DecidableEq, Repr

/-- `Torrent::total_length`: the single-file `length` if present, else the
sum of the multi-file lengths, else `0`. -/
def Torrent.totalLength (t : Torrent) : Int :=
  match t.info.length with
  | some len => len
  | none =>
    match t.info.files with
    | some files => (files.map (·.length)).sum
    | none => 0

/-- `Torrent::get_piece_hash`: the 20 bytes `pieces[20·i .. 20·i+20)`, or an
error when that range overruns `pieces`. -/
def Torrent.getPieceHash (t : Torrent) (pieceIndex : Nat) : Except String (List Byte) :=
  let hashLen : Nat := 20
  let start := pieceIndex * hashLen
  let stop := start + hashLen
  if stop > t.info.pieces.length then
    .error "Piece index out of bounds"
  else
    .ok ((t.info.pieces.drop start).take hashLen)

/-- `Torrent::calculate_piece_size`: pieces have nominal size
`piece_length`; the last piece (`index = pieces.len()/20 − 1`) gets the
remainder `total_length % piece_length` unless that remainder is zero.
The source computes `total_len % (piece_len as i64)` with Rust's
truncated `%` (`Int.tmod`) and narrows the result with `as u32`. -/
def Torrent.calculatePieceSize (t : Torrent) (pieceIndex : Nat) : Nat :=
  let piece_len : Nat := t.info.piece_length
  let total_len : Int := t.totalLength
  let num_pieces : Nat := t.info.pieces.length / 20
  if pieceIndex = num_pieces - 1 then
    let remainder : Int := Int.tmod total_len (u64ToI64 piece_len)
    if remainder = 0 then u64ToU32 piece_len else i64ToU32 remainder
  else
    u64ToU32 piece_len

/-! ## Piece ledger (`src/core/manager.rs`)

`TorrentManager` holds the torrent, a `Vec<PieceStatus>` and the counter
`downloaded_pieces`.  The ledger operations are pure state
transformers here; `pick_next_piece` additionally returns the picked
index.  `mark_piece_complete` and `reset_piece` index
`piece_status[index]` directly (a Rust panic when out of range), so the
embedded versions are only invoked at indices below the ledger length;
the `getD` default is arbitrary there. -/

/-- `PieceStatus` in `manager.rs`. -/
inductive PieceStatus where
  | Pending
  | InProgress
  | Complete
deriving DecidableEq, Repr, Inhabited

/-- The mutable state of `TorrentManager`: the status vector and the
completed-piece counter (the immutable `torrent` field is kept separate). -/
structure ManagerState where
  pieceStatus : List PieceStatus
  downloadedPieces : Nat
deriving DecidableEq, Repr

/-- `TorrentManager::new`: one `Pending` slot per 20-byte hash, counter 0. -/
def ManagerState.new (t : Torrent) : ManagerState :=
  { pieceStatus := List.replicate (t.info.pieces.length / 20) .Pending
    downloadedPieces := 0 }

/-- The scan of `pick_next_piece`, with `i` the index of the head of the
remaining status list: the first `Pending` index that the peer bitfield
marks available is flipped to `InProgress` and returned. -/
def pickNextPieceAux (bf : List Bool) : Nat → List PieceStatus → Option Nat × List PieceStatus
  | _, [] => (none, [])
  | i, st :: rest =>
    if st = .Pending ∧ i < bf.length ∧ bf.getD i false then
      (some i, .InProgress :: rest)
    else
      ((pickNextPieceAux bf (i + 1) rest).1, st :: (pickNextPieceAux bf (i + 1) rest).2)

/-- `TorrentManager::pick_next_piece`: linear scan from index 0. -/
def ManagerState.pickNextPiece (s : ManagerState) (bf : List Bool) :
    Option Nat × ManagerState :=
  let (r, ps) := pickNextPieceAux bf 0 s.pieceStatus
  (r, { s with pieceStatus := ps })

/-- `TorrentManager::mark_piece_complete`: if `piece_status[index]` is not
`Complete`, set it to `Complete` and increment `downloaded_pieces`. -/
def ManagerState.markPieceComplete (s : ManagerState) (index : Nat) : ManagerState :=
  if s.pieceStatus.getD index .Complete ≠ .Complete then
    { pieceStatus := s.pieceStatus.set index .Complete
      downloadedPieces := s.downloadedPieces + 1 }
  else s

/-- `TorrentManager::reset_piece`: any non-`Complete` status goes back to
`Pending`. -/
def ManagerState.resetPiece (s : ManagerState) (index : Nat) : ManagerState :=
  if s.pieceStatus.getD index .Complete ≠ .Complete then
    { s with pieceStatus := s.pieceStatus.set index .Pending }
  else s

/-- `TorrentManager::is_complete`: the counter has reached the piece count. -/
def ManagerState.isComplete (s : ManagerState) : Bool :=
  s.downloadedPieces = s.pieceStatus.length

/-- One ledger call, as issued by a peer session under the manager lock. -/
inductive MgrOp where
  | pickOp (bf : List Bool)
  | markOp (i : Nat)
  | resetOp (i : Nat)
deriving DecidableEq, Repr, Inhabited

/-- Apply one ledger call to the state (each call is atomic under the
manager mutex, so an interleaving of sessions is a sequence of calls). -/
def MgrOp.apply (s : ManagerState) : MgrOp → ManagerState
  | .pickOp bf => (s.pickNextPiece bf).2
  | .markOp i => s.markPieceComplete i
  | .resetOp i => s.resetPiece i

/-- The value a call returns: only `pick_next_piece` returns an index. -/
def MgrOp.ret (s : ManagerState) : MgrOp → Option Nat
  | .pickOp bf => (s.pickNextPiece bf).1
  | .markOp _ => none
  | .resetOp _ => none

/-- Run a sequence of ledger calls from a state. -/
def runOps (s : ManagerState) (ops : List MgrOp) : ManagerState :=
  ops.foldl MgrOp.apply s

/-- States reachable from `new` by ledger calls whose indices are in
range (out-of-range indices panic in the source). -/
inductive Reachable (t : Torrent) : ManagerState → Prop where
  | new : Reachable t (ManagerState.new t)
  | pick (s : ManagerState) (bf : List Bool) :
      Reachable t s → Reachable t (s.pickNextPiece bf).2
  | mark (s : ManagerState) (i : Nat) :
      i < s.pieceStatus.length → Reachable t s → Reachable t (s.markPieceComplete i)
  | reset (s : ManagerState) (i : Nat) :
      i < s.pieceStatus.length → Reachable t s → Reachable t (s.resetPiece i)

/-- The number of `Complete` entries in the ledger (the quantity the
counter `downloaded_pieces` is meant to track). -/
def countComplete (s : ManagerState) : Nat :=
  s.pieceStatus.countP (fun st => decide (st = PieceStatus.Complete))

/-! ## Wire codec (`src/network/message.rs`)

Frames are `[u32 big-endian length][payload…]`.  `Message::read` pulls
bytes off an async stream; here the stream is a `List Byte` and a read
returns the value together with the unconsumed rest, failing (`none`)
when the stream is too short — exactly when the source's `read_exact`
fails. -/

/-- `u32::to_be_bytes`: four big-endian bytes of the low 32 bits. -/
def u32ToBE (n : Nat) : List Byte :=
  [n / 2 ^ 24 % 256, n / 2 ^ 16 % 256, n / 2 ^ 8 % 256, n % 256]

/-- `u32::from_be_bytes` on a 4-byte buffer. -/
def u32FromBE (b : List Byte) : Nat :=
  match b with
  | [b0, b1, b2, b3] => b0 * 2 ^ 24 + b1 * 2 ^ 16 + b2 * 2 ^ 8 + b3
  | _ => 0

/-- `read_exact(k)` on a list stream: the first `k` bytes and the rest,
or failure when fewer than `k` bytes remain. -/
def readBytes (k : Nat) (s : List Byte) : Option (List Byte × List Byte) :=
  if k ≤ s.length then some (s.take k, s.drop k) else none

/-- `Message` in `message.rs`.  The `u32` fields are `Nat`s; a value the
Rust type can hold has all integer fields `< 2^32`. -/
inductive Message where
  | KeepAlive
  | Choke
  | Unchoke
  | Interested
  | NotInterested
  | Have (index : Nat)
  | Bitfield (payload : List Byte)
  | Request (index begin length : Nat)
  | Piece (index begin : Nat) (block : List Byte)
deriving DecidableEq, Repr

/-- Field bounds guaranteed by the Rust types `u32` / `Vec<u8>`. -/
def Message.wf : Message → Prop
  | .KeepAlive | .Choke | .Unchoke | .Interested | .NotInterested => True
  | .Have index => index < 2 ^ 32
  | .Bitfield _ => True
  | .Request index begin length =>
      index < 2 ^ 32 ∧ begin < 2 ^ 32 ∧ length < 2 ^ 32
  | .Piece index begin _ => index < 2 ^ 32 ∧ begin < 2 ^ 32

/-- `Message::serialize`.  For `Bitfield` and `Piece` the length prefix is
computed in `u32` arithmetic from `payload.len() as u32`, hence the
`% 2^32` on the length field. -/
def Message.serialize : Message → List Byte
  | .KeepAlive => [0, 0, 0, 0]
  | .Choke => [0, 0, 0, 1, 0]
  | .Unchoke => [0, 0, 0, 1, 1]
  | .Interested => [0, 0, 0, 1, 2]
  | .NotInterested => [0, 0, 0, 1, 3]
  | .Have index => [0, 0, 0, 5, 4] ++ u32ToBE index
  | .Bitfield payload =>
      u32ToBE ((1 + payload.length % 2 ^ 32) % 2 ^ 32) ++ [5] ++ payload
  | .Request index begin length =>
      [0, 0, 0, 13, 6] ++ u32ToBE index ++ u32ToBE begin ++ u32ToBE length
  | .Piece index begin block =>
      u32ToBE ((1 + 4 + 4 + block.length % 2 ^ 32) % 2 ^ 32) ++ [7] ++
        u32ToBE index ++ u32ToBE begin ++ block

/-- `Message::read` on a list stream: length prefix, `KeepAlive` at
length 0, else one id byte, `length − 1` payload bytes, and the
id-directed parse with the source's payload-length checks. -/
def readMessage (s : List Byte) : Option (Message × List Byte) := do
  let (lengthBuf, s) ← readBytes 4 s
  let length := u32FromBE lengthBuf
  if length = 0 then
    return (.KeepAlive, s)
  let (idBuf, s) ← readBytes 1 s
  let id := idBuf.getD 0 0
  let payloadLen := length - 1
  let (payload, s) ← readBytes payloadLen s
  match id with
  | 0 => return (.Choke, s)
  | 1 => return (.Unchoke, s)
  | 2 => return (.Interested, s)
  | 3 => return (.NotInterested, s)
  | 4 =>
    if payload.length ≠ 4 then none
    else return (.Have (u32FromBE payload), s)
  | 5 => return (.Bitfield payload, s)
  | 6 =>
    if payload.length ≠ 12 then none
    else return (.Request (u32FromBE (payload.take 4))
      (u32FromBE ((payload.drop 4).take 4)) (u32FromBE (payload.drop 8)), s)
  | 7 =>
    if payload.length < 8 then none
    else return (.Piece (u32FromBE (payload.take 4))
      (u32FromBE ((payload.drop 4).take 4)) (payload.drop 8), s)
  | _ => none

/-- The variable-length variants whose `u32` frame-length computation
must not wrap: the serialized frame length `1 + payload.len()`
(Bitfield) resp. `9 + block.len()` (Piece) fits in a `u32`. -/
def Message.frameFits : Message → Prop
  | .Bitfield payload => 1 + payload.length < 2 ^ 32
  | .Piece _ _ block => 1 + 4 + 4 + block.length < 2 ^ 32
  | _ => True

/-- Modelled from the spec's message table (§4.4): a well-formed frame
is a `u32` big-endian length prefix followed by a payload of the stated
shape — length 0 (KeepAlive); ids 0–3 with empty payload; id 4 with a
4-byte payload; id 5 with any payload; id 6 with a 12-byte payload;
id 7 with a payload of at least 8 bytes — all entries being bytes.
This is the spec-side notion the codec-bijection claim quantifies over,
kept separate from the source-derived `readMessage`/`serialize`. -/
def WellFormedFrame (b : List Byte) : Prop :=
  (∀ x ∈ b, x < 256) ∧
  (b = [0, 0, 0, 0] ∨
   (∃ id, id ≤ 3 ∧ b = [0, 0, 0, 1, id]) ∨
   (∃ p, p.length = 4 ∧ b = [0, 0, 0, 5, 4] ++ p) ∨
   (∃ p, 1 + p.length < 2 ^ 32 ∧ b = u32ToBE (1 + p.length) ++ 5 :: p) ∨
   (∃ p, p.length = 12 ∧ b = [0, 0, 0, 13, 6] ++ p) ∨
   (∃ p, 8 ≤ p.length ∧ 1 + p.length < 2 ^ 32 ∧ b = u32ToBE (1 + p.length) ++ 7 :: p))

/-! ## Peer-session bitfield decoding (`src/network/mod.rs`, Bitfield arm)

On `Message::Bitfield(bitfield)` the session runs
`for (i, byte) in bitfield.iter().enumerate() { for bit in 0..8 { … } }`,
setting `peer_has_pieces[i*8 + bit] = true` whenever the index is in
range and bit `7 − bit` of the byte is set. -/

/-- The inner `for bit in 0..8` loop for byte number `i`. -/
def applyBitfieldByte (i : Nat) (byte : Byte) (acc : List Bool) : List Bool :=
  (List.range 8).foldl
    (fun acc bit =>
      let pieceIdx := i * 8 + bit
      if pieceIdx < acc.length ∧ byte &&& (1 <<< (7 - bit)) ≠ 0 then
        acc.set pieceIdx true
      else acc)
    acc

/-- The outer loop over `bitfield.iter().enumerate()`, with `i` the
number of the first byte of `bytes`. -/
def applyBitfieldFrom (i : Nat) (bytes : List Byte) (acc : List Bool) : List Bool :=
  match bytes with
  | [] => acc
  | byte :: rest => applyBitfieldFrom (i + 1) rest (applyBitfieldByte i byte acc)

/-- The whole Bitfield arm: fold the received bytes over `peer_has_pieces`. -/
def applyBitfield (bytes : List Byte) (peerHasPieces : List Bool) : List Bool :=
  applyBitfieldFrom 0 bytes peerHasPieces

/-! ## Multi-file piece writes

Both `TorrentManager::write_piece_to_disk` (`manager.rs`) and the inline
on-match write in `run_peer_session` (`network/mod.rs`) flatten the
torrent into a `(path, length)` list and run the same span loop over it:
for each file overlapping the piece's global byte range they seek to
`seek_pos_in_file` and write `data[write_start_in_piece ..
write_end_in_piece]`.  The effect is modelled as the list of
`(path, file offset, bytes)` writes performed, a path being its ordered
`PathBuf::push` components.  The two call sites differ only in the
values fed to the loop — in particular in `piece_global_start`. -/

/-- A file path as its ordered components. -/
abbrev FsPath := List String

/-- One performed write: target path, seek offset in the file, bytes. -/
abbrev FsWrite := FsPath × Nat × List Byte

/-- The `files_list` flattening used (identically) by
`write_piece_to_disk`, `read_piece_from_disk`, `verify_existing_data`
and the inline session write: multi-file torrents give
`output_dir/name/path…` per file, single-file torrents give the one
entry `(output_dir/name, total_length())`. -/
def filesList (t : Torrent) (outputDir : String) : List (FsPath × Int) :=
  match t.info.files with
  | some files =>
      files.map (fun f => (outputDir :: t.info.name :: f.path, f.length))
  | none => [([outputDir, t.info.name], t.totalLength)]

/-- The shared span loop, accumulating `file_global_start` (a `u64`, so
each `file_len` enters it through `as u64`).  For a file overlapping
`[pieceGlobalStart, pieceGlobalEnd)` it emits the write of
`data[write_start_in_piece .. write_end_in_piece]` at
`seek_pos_in_file`; `pieceLen` is the loop's fallback upper slice bound
(`piece_len` in both sources). -/
def spanFileWrites (pieceGlobalStart pieceGlobalEnd pieceLen : Nat) (data : List Byte) :
    Nat → List (FsPath × Int) → List FsWrite
  | _, [] => []
  | fileGlobalStart, (path, fileLen) :: rest =>
    let fileGlobalEnd := fileGlobalStart + i64ToU64 fileLen
    let tail := spanFileWrites pieceGlobalStart pieceGlobalEnd pieceLen data
      fileGlobalEnd rest
    if fileGlobalEnd > pieceGlobalStart ∧ fileGlobalStart < pieceGlobalEnd then
      let writeStartInPiece :=
        if fileGlobalStart > pieceGlobalStart then fileGlobalStart - pieceGlobalStart else 0
      let writeEndInPiece :=
        if fileGlobalEnd < pieceGlobalEnd then fileGlobalEnd - pieceGlobalStart else pieceLen
      let seekPosInFile :=
        if pieceGlobalStart > fileGlobalStart then pieceGlobalStart - fileGlobalStart else 0
      (path, seekPosInFile,
        (data.drop writeStartInPiece).take (writeEndInPiece - writeStartInPiece)) :: tail
    else tail

/-- `TorrentManager::write_piece_to_disk(index, data)`: checks
`data.len() == calculate_piece_size(index)`, then spans the files with
`piece_global_start = index * piece_length` (the nominal
`info.piece_length`). -/
def writePieceToDisk (t : Torrent) (index : Nat) (data : List Byte) :
    Except String (List FsWrite) :=
  let outputDir := "downloads"
  let pieceLen : Nat := t.calculatePieceSize index
  if data.length ≠ pieceLen then
    .error "Data length mismatch"
  else
    let pieceGlobalStart := index * t.info.piece_length
    let pieceGlobalEnd := pieceGlobalStart + pieceLen
    .ok (spanFileWrites pieceGlobalStart pieceGlobalEnd pieceLen data 0
      (filesList t outputDir))

/-- The inline on-match write of `run_peer_session`: the session state
has `piece_length = calculate_piece_size(index)` (set at assignment),
and the write uses `piece_global_start = (index as u64) * piece_len`
where `piece_len = state.piece_length` — the piece's OWN size, not the
nominal `info.piece_length`. -/
def sessionInlineWrite (t : Torrent) (index : Nat) (data : List Byte) :
    List FsWrite :=
  let outputDir := "downloads"
  let pieceLen : Nat := t.calculatePieceSize index
  let pieceGlobalStart := index * pieceLen
  let pieceGlobalEnd := pieceGlobalStart + pieceLen
  spanFileWrites pieceGlobalStart pieceGlobalEnd pieceLen data 0
    (filesList t outputDir)

/-! ## Concrete torrents used as evaluation inputs -/

/-- A tiny single-file torrent: `piece_length = 4`, total length 10,
three pieces (60 hash bytes), so the last piece has size 2. -/
def lastPieceTorrent : Torrent :=
  { announce := ""
    announce_list := none
    info :=
      { name := "f"
        piece_length := 4
        pieces := List.replicate 60 0
        length := some 10
        files := none } }

/-- A torrent whose `piece_length` does not fit in a `u32`: one piece,
`piece_length = 2^32`, total length `2^32`. -/
def hugePieceTorrent : Torrent :=
  { announce := ""
    announce_list := none
    info :=
      { name := "g"
        piece_length := 2 ^ 32
        pieces := List.replicate 20 0
        length := some (2 ^ 32)
        files := none } }

/-! ## Theorems -/

/-- Indexing a `take` of a `drop`: entry `j < n` of
`(l.drop s).take n` is entry `s + j` of `l`. -/
theorem getD_slice (l : List Byte) (s n j : Nat) (hj : j < n) :
    ((l.drop s).take n).getD j 0 = l.getD (s + j) 0 := by
  simp [List.getD_eq_getElem?_getD, List.getElem?_take, hj, List.getElem?_drop]

/-- C7: `get_piece_hash(i)` returns `Ok` with exactly the 20 bytes
`pieces[20·i .. 20·i+20)` whenever `20·i + 20 ≤ pieces.len()`, and an
error for every out-of-range index.  (`get_piece_hash` takes `&self`,
so the torrent is unchanged in both cases; the embedding is pure.) -/
theorem c7_get_piece_hash (t : Torrent) (i : Nat) :
    (20 * i + 20 ≤ t.info.pieces.length →
      ∃ h, t.getPieceHash i = .ok h ∧ h.length = 20 ∧
        ∀ j, j < 20 → h.getD j 0 = t.info.pieces.getD (20 * i + j) 0) ∧
    (t.info.pieces.length < 20 * i + 20 →
      t.getPieceHash i = .error "Piece index out of bounds") := by
  constructor
  · intro hle
    have hcond : ¬ (i * 20 + 20 > t.info.pieces.length) := by omega
    refine ⟨(t.info.pieces.drop (i * 20)).take 20, ?_, ?_, ?_⟩
    · simp only [Torrent.getPieceHash]
      rw [if_neg hcond]
    · rw [List.length_take, List.length_drop]; omega
    · intro j hj
      rw [getD_slice _ _ _ _ hj, Nat.mul_comm i 20]
  · intro hgt
    have hcond : i * 20 + 20 > t.info.pieces.length := by omega
    simp only [Torrent.getPieceHash]
    rw [if_pos hcond]

/-- Witness for C7 at `lastPieceTorrent` (60 hash bytes): index 1 is in
range, index 3 is out of range. -/
theorem c7_get_piece_hash_witness :
    (∃ h, lastPieceTorrent.getPieceHash 1 = .ok h ∧ h.length = 20 ∧
      ∀ j, j < 20 → h.getD j 0 = lastPieceTorrent.info.pieces.getD (20 * 1 + j) 0) ∧
    lastPieceTorrent.getPieceHash 3 = .error "Piece index out of bounds" :=
  ⟨(c7_get_piece_hash lastPieceTorrent 1).1 (by decide),
   (c7_get_piece_hash lastPieceTorrent 3).2 (by decide)⟩

/-- C9: `calculate_piece_size` performs no bounds check: for `N ≥ 1`
pieces and any index other than `N − 1` — in particular every
out-of-range index — it returns the nominal `piece_length` (as the
`u32` it always returns) instead of signalling an error.  By contrast
`get_piece_hash` rejects those out-of-range indices. -/
theorem c9_piece_size_unbounded_index (t : Torrent) (i : Nat)
    (hN : 1 ≤ t.info.pieces.length / 20)
    (hi : i ≠ t.info.pieces.length / 20 - 1) :
    t.calculatePieceSize i = u64ToU32 t.info.piece_length ∧
    (t.info.piece_length < 2 ^ 32 → t.calculatePieceSize i = t.info.piece_length) ∧
    (t.info.pieces.length / 20 ≤ i →
      t.getPieceHash i = .error "Piece index out of bounds") := by
  have hmain : t.calculatePieceSize i = u64ToU32 t.info.piece_length := by
    simp only [Torrent.calculatePieceSize]
    rw [if_neg hi]
  refine ⟨hmain, ?_, ?_⟩
  · intro hlt
    rw [hmain]
    exact Nat.mod_eq_of_lt hlt
  · intro hgt
    have hcond : i * 20 + 20 > t.info.pieces.length := by omega
    simp only [Torrent.getPieceHash]
    rw [if_pos hcond]

/-- Witness for C9 at `lastPieceTorrent` (`N = 3`) and the out-of-range
index 5: the nominal size 4 comes back, while `get_piece_hash` errors. -/
theorem c9_piece_size_unbounded_index_witness :
    lastPieceTorrent.calculatePieceSize 5 = u64ToU32 lastPieceTorrent.info.piece_length ∧
    (lastPieceTorrent.info.piece_length < 2 ^ 32 →
      lastPieceTorrent.calculatePieceSize 5 = lastPieceTorrent.info.piece_length) ∧
    (lastPieceTorrent.info.pieces.length / 20 ≤ 5 →
      lastPieceTorrent.getPieceHash 5 = .error "Piece index out of bounds") :=
  c9_piece_size_unbounded_index lastPieceTorrent 5 (by decide) (by decide)

/-- C1: evaluating both write paths on the torrent with `piece_length = 4`,
`total_length = 10` at the last piece (index 2, size 2): the inline
session write places the 2 verified bytes at file offset 4
(`index · size(index)`), while `write_piece_to_disk` places them at file
offset 8 (`index · piece_length`, the offset the spec prescribes and the
offset `read_piece_from_disk` reads back from) — so the two write
implementations disagree on a short last piece. -/
theorem c1_inline_write_misplaces_short_last_piece :
    lastPieceTorrent.calculatePieceSize 2 = 2 ∧
    sessionInlineWrite lastPieceTorrent 2 [1, 2] = [(["downloads", "f"], 4, [1, 2])] ∧
    writePieceToDisk lastPieceTorrent 2 [1, 2] = .ok [(["downloads", "f"], 8, [1, 2])] ∧
    sessionInlineWrite lastPieceTorrent 2 [1, 2] ≠
      (writePieceToDisk lastPieceTorrent 2 [1, 2]).toOption.getD [] := by
  refine ⟨by decide, by decide, by rfl, by decide⟩

/-! ### `pick_next_piece`: characterization of the scan -/

/-- `getD` after `set` at the written index. -/
theorem getD_set_self {α : Type} (l : List α) (i : Nat) (a d : α) (h : i < l.length) :
    (l.set i a).getD i d = a := by
  simp [List.getD_eq_getElem?_getD, List.getElem?_set_eq_of_lt a h]

/-- `getD` after `set` at a different index. -/
theorem getD_set_ne {α : Type} (l : List α) (i j : Nat) (a d : α) (h : i ≠ j) :
    (l.set i a).getD j d = l.getD j d := by
  simp [List.getD_eq_getElem?_getD, List.getElem?_set_ne h]

/-- The scan returning `none` leaves the list unchanged, and no index is
eligible (counting positions from the scan's start index `n`). -/
theorem pickAux_none (bf : List Bool) :
    ∀ (l : List PieceStatus) (n : Nat) (l' : List PieceStatus),
    pickNextPieceAux bf n l = (none, l') →
    l' = l ∧ ∀ k, k < l.length →
      ¬(l.getD k .Complete = .Pending ∧ n + k < bf.length ∧ bf.getD (n + k) false = true) := by
  intro l
  induction l with
  | nil =>
    intro n l' h
    simp only [pickNextPieceAux] at h
    injection h with _ hl
    exact ⟨hl.symm, fun k hk => absurd hk (by simp)⟩
  | cons st rest ih =>
    intro n l' h
    simp only [pickNextPieceAux] at h
    split at h
    next hcond =>
      exact absurd (congrArg Prod.fst h) (by simp)
    next hcond =>
      injection h with hr hl'
      have haux : pickNextPieceAux bf (n + 1) rest =
          (none, (pickNextPieceAux bf (n + 1) rest).2) := by
        rw [← hr]
      obtain ⟨hrest, hmin⟩ := ih (n + 1) _ haux
      refine ⟨by rw [← hl', hrest], ?_⟩
      intro k hk
      match k with
      | 0 => simpa using hcond
      | k + 1 =>
        have hlt : k < rest.length := by simp only [List.length_cons] at hk; omega
        have hstep := hmin k hlt
        have heq : n + (k + 1) = n + 1 + k := by omega
        simp only [List.getD_cons_succ, heq]
        exact hstep

/-- The scan returning `some i` found the first eligible index: `i` is
eligible, every position before it is not, and the list changes exactly
at position `i − n` (set to `InProgress`). -/
theorem pickAux_some (bf : List Bool) :
    ∀ (l : List PieceStatus) (n i : Nat) (l' : List PieceStatus),
    pickNextPieceAux bf n l = (some i, l') →
    n ≤ i ∧ i - n < l.length ∧
    l.getD (i - n) .Complete = .Pending ∧ i < bf.length ∧ bf.getD i false = true ∧
    (∀ k, k < i - n →
      ¬(l.getD k .Complete = .Pending ∧ n + k < bf.length ∧ bf.getD (n + k) false = true)) ∧
    l' = l.set (i - n) .InProgress := by
  intro l
  induction l with
  | nil =>
    intro n i l' h
    simp only [pickNextPieceAux] at h
    exact absurd (congrArg Prod.fst h) (by simp)
  | cons st rest ih =>
    intro n i l' h
    simp only [pickNextPieceAux] at h
    split at h
    next hcond =>
      injection h with hi hl'
      obtain rfl : n = i := Option.some.inj hi
      refine ⟨Nat.le_refl n, by simp [Nat.sub_self], ?_, hcond.2.1, hcond.2.2, ?_, ?_⟩
      · rw [Nat.sub_self]
        simpa using hcond.1
      · intro k hk
        exact absurd hk (by omega)
      · rw [Nat.sub_self]
        exact hl'.symm
    next hcond =>
      injection h with hr hl'
      have haux : pickNextPieceAux bf (n + 1) rest =
          (some i, (pickNextPieceAux bf (n + 1) rest).2) := by
        rw [← hr]
      obtain ⟨hni, hlen, hPend, hibf, hbfi, hmin, hset⟩ := ih (n + 1) i _ haux
      have hsub : i - n = (i - (n + 1)) + 1 := by omega
      refine ⟨by omega, by simp; omega, ?_, hibf, hbfi, ?_, ?_⟩
      · rw [hsub]
        simpa using hPend
      · intro k hk
        match k with
        | 0 => simpa using hcond
        | k + 1 =>
          have hstep := hmin k (by omega)
          have heq : n + (k + 1) = n + 1 + k := by omega
          simp only [List.getD_cons_succ, heq]
          exact hstep
      · rw [← hl', hset, hsub]
        rfl

/-- C6: with a peer bitfield of the ledger's length, `pick_next_piece`
returns `some i` exactly for the smallest index `i` with
`status[i] = Pending` and `peer_bitfield[i] = true`, transitions that
index (and only it) to `InProgress`, and leaves the counter alone; when
no eligible index exists it returns `none` and changes nothing. -/
theorem c6_pick_next_piece (s : ManagerState) (bf : List Bool)
    (hlen : bf.length = s.pieceStatus.length) :
    (∀ i, (s.pickNextPiece bf).1 = some i →
      i < s.pieceStatus.length ∧
      s.pieceStatus.getD i .Complete = .Pending ∧ bf.getD i false = true ∧
      (∀ j, j < i →
        ¬(s.pieceStatus.getD j .Complete = .Pending ∧ bf.getD j false = true)) ∧
      (s.pickNextPiece bf).2.pieceStatus = s.pieceStatus.set i .InProgress ∧
      (s.pickNextPiece bf).2.downloadedPieces = s.downloadedPieces) ∧
    ((s.pickNextPiece bf).1 = none →
      (s.pickNextPiece bf).2 = s ∧
      ∀ j, j < s.pieceStatus.length →
        ¬(s.pieceStatus.getD j .Complete = .Pending ∧ bf.getD j false = true)) := by
  rcases haux : pickNextPieceAux bf 0 s.pieceStatus with ⟨r, ps⟩
  have hpick : s.pickNextPiece bf = (r, { s with pieceStatus := ps }) := by
    simp [ManagerState.pickNextPiece, haux]
  constructor
  · intro i hi
    rw [hpick] at hi
    have hr : r = some i := hi
    obtain ⟨-, hlt, hPend, hibf, hbfi, hmin, hset⟩ :=
      pickAux_some bf s.pieceStatus 0 i ps (by rw [haux, hr])
    simp only [Nat.sub_zero] at hlt hPend hset
    refine ⟨hlt, hPend, hbfi, ?_, by rw [hpick]; exact hset, by rw [hpick]⟩
    intro j hj hcontra
    refine hmin j (by omega) ⟨hcontra.1, by simp; omega, by simpa using hcontra.2⟩
  · intro hnone
    rw [hpick] at hnone
    have hr : r = none := hnone
    obtain ⟨hsame, hmin⟩ :=
      pickAux_none bf s.pieceStatus 0 ps (by rw [haux, hr])
    constructor
    · rw [hpick, hsame]
    · intro j hj hcontra
      refine hmin j hj ⟨hcontra.1, by simp; omega, by simpa using hcontra.2⟩

/-- Witness for C6: three `Pending` pieces, peer bitfield
`[false, true, true]` — the pick returns index 1 (the smallest
available piece the peer has) and flips exactly it to `InProgress`. -/
theorem c6_pick_next_piece_witness :
    1 < (ManagerState.new lastPieceTorrent).pieceStatus.length ∧
    (ManagerState.new lastPieceTorrent).pieceStatus.getD 1 .Complete = .Pending ∧
    [false, true, true].getD 1 false = true ∧
    (∀ j, j < 1 →
      ¬((ManagerState.new lastPieceTorrent).pieceStatus.getD j .Complete = .Pending ∧
        [false, true, true].getD j false = true)) ∧
    ((ManagerState.new lastPieceTorrent).pickNextPiece [false, true, true]).2.pieceStatus =
      (ManagerState.new lastPieceTorrent).pieceStatus.set 1 .InProgress ∧
    ((ManagerState.new lastPieceTorrent).pickNextPiece [false, true, true]).2.downloadedPieces =
      (ManagerState.new lastPieceTorrent).downloadedPieces :=
  (c6_pick_next_piece (ManagerState.new lastPieceTorrent) [false, true, true]
    (by decide)).1 1 (by decide)

/-! ### The completed-pieces counter (C10) and pick/mark/reset effects -/

/-- `countP` after `set` at an in-range index, in subtraction-free form. -/
theorem countP_set (p : PieceStatus → Bool) :
    ∀ (l : List PieceStatus) (i : Nat) (a : PieceStatus), i < l.length →
    (l.set i a).countP p + (p (l.getD i .Complete)).toNat =
      l.countP p + (p a).toNat := by
  intro l
  induction l with
  | nil => intro i a h; simp at h
  | cons st rest ih =>
    intro i a h
    match i with
    | 0 =>
      simp only [List.set_cons_zero, List.countP_cons, List.getD_cons_zero]
      cases hst : p st <;> cases ha : p a <;> simp [hst, ha]
    | i + 1 =>
      have hrec := ih i a (by simp at h; omega)
      simp only [List.set_cons_succ, List.countP_cons, List.getD_cons_succ]
      omega

/-- `getD` after `set`, all cases: either untouched, or the index matches
and was in range. -/
theorem getD_set_cases {α : Type} (l : List α) (i j : Nat) (a d : α) :
    (l.set i a).getD j d = l.getD j d ∨
    ((l.set i a).getD j d = a ∧ i = j ∧ j < l.length) := by
  by_cases hij : i = j
  · subst hij
    by_cases hl : i < l.length
    · exact Or.inr ⟨getD_set_self l i a d hl, rfl, hl⟩
    · left
      rw [List.set_eq_of_length_le (by omega)]
  · exact Or.inl (getD_set_ne l i j a d hij)

/-- A pick leaves every ledger slot as it was or sets it `InProgress`. -/
theorem statusAt_pick (s : ManagerState) (bf : List Bool) (p : Nat) :
    (s.pickNextPiece bf).2.pieceStatus.getD p .Complete = s.pieceStatus.getD p .Complete ∨
    (s.pickNextPiece bf).2.pieceStatus.getD p .Complete = .InProgress := by
  rcases haux : pickNextPieceAux bf 0 s.pieceStatus with ⟨r, ps⟩
  have hpick : s.pickNextPiece bf = (r, { s with pieceStatus := ps }) := by
    simp [ManagerState.pickNextPiece, haux]
  rw [hpick]
  cases r with
  | none =>
    obtain ⟨hsame, -⟩ := pickAux_none bf s.pieceStatus 0 ps haux
    left
    rw [hsame]
  | some i =>
    obtain ⟨-, hlt, -, -, -, -, hset⟩ := pickAux_some bf s.pieceStatus 0 i ps haux
    simp only [Nat.sub_zero] at hlt hset
    rcases getD_set_cases s.pieceStatus i p PieceStatus.InProgress .Complete with hc | ⟨hc, -, -⟩
    · left; rw [hset]; exact hc
    · right; rw [hset]; exact hc

/-- A pick that returns `some i` saw `Pending` at `i` and left
`InProgress` there. -/
theorem pick_ret_some (s : ManagerState) (bf : List Bool) (i : Nat)
    (h : (s.pickNextPiece bf).1 = some i) :
    s.pieceStatus.getD i .Complete = .Pending ∧
    (s.pickNextPiece bf).2.pieceStatus.getD i .Complete = .InProgress := by
  rcases haux : pickNextPieceAux bf 0 s.pieceStatus with ⟨r, ps⟩
  have hpick : s.pickNextPiece bf = (r, { s with pieceStatus := ps }) := by
    simp [ManagerState.pickNextPiece, haux]
  rw [hpick] at h
  have hr : r = some i := h
  subst hr
  obtain ⟨-, hlt, hPend, -, -, -, hset⟩ := pickAux_some bf s.pieceStatus 0 i ps haux
  simp only [Nat.sub_zero] at hlt hPend hset
  refine ⟨hPend, ?_⟩
  rw [hpick, hset]
  exact getD_set_self s.pieceStatus i .InProgress .Complete hlt

/-- A mark leaves every ledger slot as it was or sets it `Complete`. -/
theorem statusAt_mark (s : ManagerState) (j p : Nat) :
    (s.markPieceComplete j).pieceStatus.getD p .Complete = s.pieceStatus.getD p .Complete ∨
    (s.markPieceComplete j).pieceStatus.getD p .Complete = .Complete := by
  unfold ManagerState.markPieceComplete
  split
  · rcases getD_set_cases s.pieceStatus j p PieceStatus.Complete .Complete with hc | ⟨hc, -, -⟩
    · exact Or.inl hc
    · exact Or.inr hc
  · exact Or.inl rfl

/-- A reset never touches a slot other than its own index. -/
theorem statusAt_reset_ne (s : ManagerState) (j p : Nat) (hne : j ≠ p) :
    (s.resetPiece j).pieceStatus.getD p .Complete = s.pieceStatus.getD p .Complete := by
  unfold ManagerState.resetPiece
  split
  · exact getD_set_ne s.pieceStatus j p PieceStatus.Pending .Complete hne
  · rfl

/-- C10: at every reachable ledger state the counter
`downloaded_pieces` equals the number of `Complete` entries — it starts
at 0 with all `Pending`, `pick_next_piece` and `reset_piece` never
change it or the `Complete` count, and `mark_piece_complete` bumps both
exactly on a non-`Complete` → `Complete` transition.  Consequently
`is_complete()` holds exactly when every piece is `Complete`. -/
theorem c10_counter_matches_complete_count (t : Torrent) (s : ManagerState)
    (hreach : Reachable t s) :
    s.downloadedPieces = countComplete s ∧
    (s.isComplete = true ↔ ∀ st ∈ s.pieceStatus, st = PieceStatus.Complete) := by
  have hInv : s.downloadedPieces = countComplete s := by
    induction hreach with
    | new =>
      have hzero : (List.replicate (t.info.pieces.length / 20) PieceStatus.Pending).countP
          (fun st => decide (st = PieceStatus.Complete)) = 0 := by
        rw [List.countP_eq_zero]
        intro a ha
        rw [List.eq_of_mem_replicate ha]
        decide
      simp [ManagerState.new, countComplete, hzero]
    | pick s bf hr ih =>
      rcases haux : pickNextPieceAux bf 0 s.pieceStatus with ⟨r, ps⟩
      have hpick : s.pickNextPiece bf = (r, { s with pieceStatus := ps }) := by
        simp [ManagerState.pickNextPiece, haux]
      rw [hpick]
      show s.downloadedPieces = ps.countP (fun st => decide (st = PieceStatus.Complete))
      cases r with
      | none =>
        obtain ⟨hsame, -⟩ := pickAux_none bf s.pieceStatus 0 ps haux
        rw [hsame]
        exact ih
      | some i =>
        obtain ⟨-, hlt, hPend, -, -, -, hset⟩ := pickAux_some bf s.pieceStatus 0 i ps haux
        simp only [Nat.sub_zero] at hlt hPend hset
        have hcount := countP_set (fun st => decide (st = PieceStatus.Complete))
          s.pieceStatus i .InProgress hlt
        rw [hPend] at hcount
        simp at hcount
        rw [hset, hcount]
        exact ih
    | mark s i hi hr ih =>
      unfold ManagerState.markPieceComplete
      split
      next hne =>
        show s.downloadedPieces + 1 =
          (s.pieceStatus.set i PieceStatus.Complete).countP
            (fun st => decide (st = PieceStatus.Complete))
        have hcount := countP_set (fun st => decide (st = PieceStatus.Complete))
          s.pieceStatus i .Complete hi
        simp only [List.getD_eq_getElem?_getD] at hne
        simp [hne] at hcount
        unfold countComplete at ih
        omega
      next => exact ih
    | reset s i hi hr ih =>
      unfold ManagerState.resetPiece
      split
      next hne =>
        show s.downloadedPieces =
          (s.pieceStatus.set i PieceStatus.Pending).countP
            (fun st => decide (st = PieceStatus.Complete))
        have hcount := countP_set (fun st => decide (st = PieceStatus.Complete))
          s.pieceStatus i .Pending hi
        simp only [List.getD_eq_getElem?_getD] at hne
        simp [hne] at hcount
        unfold countComplete at ih
        omega
      next => exact ih
  refine ⟨hInv, ?_⟩
  simp only [ManagerState.isComplete, decide_eq_true_eq]
  rw [hInv]
  unfold countComplete
  rw [List.countP_eq_length]
  simp

/-- Witness for C10 at the state reached by `new` followed by
`mark_piece_complete 0` on the three-piece torrent. -/
theorem c10_counter_matches_complete_count_witness :
    ((ManagerState.new lastPieceTorrent).markPieceComplete 0).downloadedPieces =
      countComplete ((ManagerState.new lastPieceTorrent).markPieceComplete 0) ∧
    (((ManagerState.new lastPieceTorrent).markPieceComplete 0).isComplete = true ↔
      ∀ st ∈ ((ManagerState.new lastPieceTorrent).markPieceComplete 0).pieceStatus,
        st = PieceStatus.Complete) :=
  c10_counter_matches_complete_count lastPieceTorrent _
    (Reachable.mark _ 0 (by decide) Reachable.new)

/-- Once a slot is not `Pending`, only `reset_piece` on that very index
can make it `Pending` again: any call sequence avoiding `resetOp i`
keeps slot `i` away from `Pending`. -/
theorem status_not_pending_stable (i : Nat) :
    ∀ (ops : List MgrOp) (s : ManagerState),
    s.pieceStatus.getD i .Complete ≠ .Pending →
    (∀ op ∈ ops, op ≠ .resetOp i) →
    (runOps s ops).pieceStatus.getD i .Complete ≠ .Pending := by
  intro ops
  induction ops with
  | nil =>
    intro s h _
    simpa [runOps] using h
  | cons op rest ih =>
    intro s h hops
    have hstep : (MgrOp.apply s op).pieceStatus.getD i .Complete ≠ .Pending := by
      cases op with
      | pickOp bf =>
        show ((s.pickNextPiece bf).2).pieceStatus.getD i .Complete ≠ .Pending
        rcases statusAt_pick s bf i with hc | hc
        · rw [hc]; exact h
        · rw [hc]; decide
      | markOp j =>
        show ((s.markPieceComplete j)).pieceStatus.getD i .Complete ≠ .Pending
        rcases statusAt_mark s j i with hc | hc
        · rw [hc]; exact h
        · rw [hc]; decide
      | resetOp j =>
        have hne : j ≠ i := by
          intro hji
          exact (hops (MgrOp.resetOp j) (List.mem_cons_self _ _)) (by rw [hji])
        show ((s.resetPiece j)).pieceStatus.getD i .Complete ≠ .Pending
        rw [statusAt_reset_ne s j i hne]
        exact h
    have hrun : runOps s (op :: rest) = runOps (MgrOp.apply s op) rest := by
      simp [runOps]
    rw [hrun]
    exact ih (MgrOp.apply s op) hstep (fun o ho => hops o (List.mem_cons_of_mem _ ho))

/-- C2: mutual exclusion of piece assignment.  Over any sequence of
atomic `pick_next_piece` / `mark_piece_complete` / `reset_piece` calls
from any starting state, two picks (at trace positions `j < k`) cannot
return the same index `i` unless some `reset_piece(i)` occurs strictly
between them: a pick returns `i` only by transitioning it
`Pending → InProgress`, and without a reset the slot never becomes
`Pending` again. -/
theorem c2_no_duplicate_pick_without_reset (s0 : ManagerState) (ops : List MgrOp)
    (j k i : Nat) (hjk : j < k) (hk : k < ops.length)
    (hj : MgrOp.ret (runOps s0 (ops.take j)) (ops.getD j default) = some i)
    (hkr : MgrOp.ret (runOps s0 (ops.take k)) (ops.getD k default) = some i) :
    ∃ m, j < m ∧ m < k ∧ ops.getD m default = MgrOp.resetOp i := by
  by_contra hno
  push_neg at hno
  have hjlt : j < ops.length := by omega
  -- the call at position j is a pick
  obtain ⟨bf, hbf⟩ : ∃ bf, ops.getD j default = MgrOp.pickOp bf := by
    cases hop : ops.getD j default with
    | pickOp bf => exact ⟨bf, rfl⟩
    | markOp m => rw [hop] at hj; simp [MgrOp.ret] at hj
    | resetOp m => rw [hop] at hj; simp [MgrOp.ret] at hj
  rw [hbf] at hj
  have hj' : ((runOps s0 (ops.take j)).pickNextPiece bf).1 = some i := hj
  -- after position j the slot i is InProgress
  have hops_j : ops[j]? = some (ops.getD j default) := by
    rw [List.getD_eq_getElem?_getD, List.getElem?_eq_getElem hjlt]
    rfl
  have htake : ops.take (j + 1) = ops.take j ++ [ops.getD j default] := by
    rw [List.take_succ, hops_j]
    rfl
  have hInProg : (runOps s0 (ops.take (j + 1))).pieceStatus.getD i .Complete =
      .InProgress := by
    rw [htake]
    simp only [runOps, List.foldl_append, List.foldl_cons, List.foldl_nil]
    rw [hbf]
    exact (pick_ret_some (runOps s0 (ops.take j)) bf i hj').2
  -- the segment (j, k) contains no reset of i, so the slot stays non-Pending
  have hseg : ops.take k = ops.take (j + 1) ++ (ops.take k).drop (j + 1) := by
    calc ops.take k
        = (ops.take k).take (j + 1) ++ (ops.take k).drop (j + 1) :=
          (List.take_append_drop _ _).symm
      _ = ops.take (j + 1) ++ (ops.take k).drop (j + 1) := by
          rw [List.take_take, Nat.min_eq_left (by omega)]
  have hnoreset : ∀ op ∈ (ops.take k).drop (j + 1), op ≠ MgrOp.resetOp i := by
    intro op hop
    obtain ⟨m, hm⟩ := List.mem_iff_getElem?.mp hop
    rw [List.getElem?_drop] at hm
    by_cases hmk : j + 1 + m < k
    · have hmops : ops[j + 1 + m]? = some op := by
        rw [List.getElem?_take, if_pos hmk] at hm
        exact hm
      have hgetD : ops.getD (j + 1 + m) default = op := by
        rw [List.getD_eq_getElem?_getD, hmops]
        rfl
      intro heq
      exact hno (j + 1 + m) (by omega) (by omega) (by rw [hgetD, heq])
    · rw [List.getElem?_take, if_neg hmk] at hm
      exact absurd hm (by simp)
  have hnotpend : (runOps s0 (ops.take k)).pieceStatus.getD i .Complete ≠ .Pending := by
    rw [hseg]
    simp only [runOps, List.foldl_append]
    exact status_not_pending_stable i _ _ (by rw [← runOps, hInProg]; decide) hnoreset
  -- but the pick at position k requires the slot to be Pending
  obtain ⟨bf2, hbf2⟩ : ∃ bf2, ops.getD k default = MgrOp.pickOp bf2 := by
    cases hop : ops.getD k default with
    | pickOp bf2 => exact ⟨bf2, rfl⟩
    | markOp m => rw [hop] at hkr; simp [MgrOp.ret] at hkr
    | resetOp m => rw [hop] at hkr; simp [MgrOp.ret] at hkr
  rw [hbf2] at hkr
  have hkr' : ((runOps s0 (ops.take k)).pickNextPiece bf2).1 = some i := hkr
  exact hnotpend (pick_ret_some (runOps s0 (ops.take k)) bf2 i hkr').1

/-- Witness for C2: in the trace `[pick, reset 0, pick]` over one
`Pending` piece both picks return index 0, and the reset at position 1
is the required intervening `reset_piece(0)`. -/
theorem c2_no_duplicate_pick_without_reset_witness :
    ∃ m, 0 < m ∧ m < 2 ∧
      [MgrOp.pickOp [true], MgrOp.resetOp 0, MgrOp.pickOp [true]].getD m default =
        MgrOp.resetOp 0 :=
  c2_no_duplicate_pick_without_reset ⟨[.Pending], 0⟩
    [MgrOp.pickOp [true], MgrOp.resetOp 0, MgrOp.pickOp [true]]
    0 2 0 (by decide) (by decide) (by decide) (by decide)

/-! ### Bitfield decoding (C8) -/

/-- The inner bit loop preserves the availability vector's length. -/
theorem bitloop_length (i : Nat) (byte : Byte) :
    ∀ (bits : List Nat) (acc : List Bool),
    (bits.foldl
      (fun acc bit =>
        let pieceIdx := i * 8 + bit
        if pieceIdx < acc.length ∧ byte &&& (1 <<< (7 - bit)) ≠ 0 then
          acc.set pieceIdx true
        else acc)
      acc).length = acc.length := by
  intro bits
  induction bits with
  | nil => intro acc; rfl
  | cons b bs ih =>
    intro acc
    rw [List.foldl_cons, ih]
    dsimp only
    split
    · exact List.length_set acc _ _
    · rfl

/-- One conditional-set step of the bit loop, read back at position `p`:
the slot turns (or stays) `true` exactly when it was `true` or this very
bit covers `p` and is set. -/
theorem bitloop_getD (i : Nat) (byte : Byte) :
    ∀ (bits : List Nat) (acc : List Bool) (p : Nat),
    ((bits.foldl
      (fun acc bit =>
        let pieceIdx := i * 8 + bit
        if pieceIdx < acc.length ∧ byte &&& (1 <<< (7 - bit)) ≠ 0 then
          acc.set pieceIdx true
        else acc)
      acc).getD p false = true ↔
      (acc.getD p false = true ∨
        ∃ bit ∈ bits, i * 8 + bit = p ∧ p < acc.length ∧
          byte &&& (1 <<< (7 - bit)) ≠ 0)) := by
  intro bits
  induction bits with
  | nil =>
    intro acc p
    simp
  | cons b bs ih =>
    intro acc p
    rw [List.foldl_cons]
    dsimp only
    by_cases hcond : i * 8 + b < acc.length ∧ byte &&& (1 <<< (7 - b)) ≠ 0
    · rw [if_pos hcond, ih]
      have hlen : (acc.set (i * 8 + b) true).length = acc.length := List.length_set acc _ _
      constructor
      · rintro (hacc | ⟨bit, hbit, hpe, hplt, hset⟩)
        · rcases getD_set_cases acc (i * 8 + b) p true false with hc | ⟨hc, he, hplt⟩
          · rw [hc] at hacc
            exact Or.inl hacc
          · exact Or.inr ⟨b, List.mem_cons_self _ _, he, hplt, hcond.2⟩
        · exact Or.inr ⟨bit, List.mem_cons_of_mem _ hbit, hpe, by rw [hlen] at hplt; exact hplt, hset⟩
      · rintro (hacc | ⟨bit, hbit, hpe, hplt, hset⟩)
        · by_cases hpb : i * 8 + b = p
          · subst hpb
            exact Or.inl (getD_set_self acc (i * 8 + b) true false hcond.1)
          · exact Or.inl (by rw [getD_set_ne acc _ _ _ _ hpb]; exact hacc)
        · rcases List.mem_cons.mp hbit with rfl | hmem
          · subst hpe
            exact Or.inl (getD_set_self acc (i * 8 + bit) true false hcond.1)
          · exact Or.inr ⟨bit, hmem, hpe, by rw [hlen]; exact hplt, hset⟩
    · rw [if_neg hcond, ih]
      constructor
      · rintro (hacc | ⟨bit, hbit, hpe, hplt, hset⟩)
        · exact Or.inl hacc
        · exact Or.inr ⟨bit, List.mem_cons_of_mem _ hbit, hpe, hplt, hset⟩
      · rintro (hacc | ⟨bit, hbit, hpe, hplt, hset⟩)
        · exact Or.inl hacc
        · rcases List.mem_cons.mp hbit with rfl | hmem
          · exact absurd ⟨hpe ▸ hplt, hset⟩ hcond
          · exact Or.inr ⟨bit, hmem, hpe, hplt, hset⟩

/-- `applyBitfieldByte` keeps the vector length. -/
theorem applyBitfieldByte_length (i : Nat) (byte : Byte) (acc : List Bool) :
    (applyBitfieldByte i byte acc).length = acc.length :=
  bitloop_length i byte (List.range 8) acc

/-- Read-back of one byte's decoding: position `p` is `true` afterwards
iff it was `true` or some bit `b < 8` of this byte covers `p`
(`i·8 + b = p`) and bit `7 − b` of the byte is set. -/
theorem applyBitfieldByte_getD (i : Nat) (byte : Byte) (acc : List Bool) (p : Nat) :
    ((applyBitfieldByte i byte acc).getD p false = true ↔
      (acc.getD p false = true ∨
        ∃ b, b < 8 ∧ i * 8 + b = p ∧ p < acc.length ∧
          byte &&& (1 <<< (7 - b)) ≠ 0)) := by
  unfold applyBitfieldByte
  rw [bitloop_getD i byte (List.range 8) acc p]
  simp only [List.mem_range]

/-- `applyBitfieldFrom` keeps the vector length. -/
theorem applyBitfieldFrom_length :
    ∀ (bytes : List Byte) (n : Nat) (acc : List Bool),
    (applyBitfieldFrom n bytes acc).length = acc.length := by
  intro bytes
  induction bytes with
  | nil => intro n acc; rfl
  | cons byte bs ih =>
    intro n acc
    show (applyBitfieldFrom (n + 1) bs (applyBitfieldByte n byte acc)).length = acc.length
    rw [ih, applyBitfieldByte_length]

/-- Read-back of the whole bitfield loop started at byte number `n`:
position `p` is `true` afterwards iff it already was, or some received
byte `m` with bit `b < 8` covers `p` and has that (MSB-first) bit set. -/
theorem applyBitfieldFrom_getD :
    ∀ (bytes : List Byte) (n : Nat) (acc : List Bool) (p : Nat),
    ((applyBitfieldFrom n bytes acc).getD p false = true ↔
      (acc.getD p false = true ∨
        ∃ m b, m < bytes.length ∧ b < 8 ∧ (n + m) * 8 + b = p ∧ p < acc.length ∧
          bytes.getD m 0 &&& (1 <<< (7 - b)) ≠ 0)) := by
  intro bytes
  induction bytes with
  | nil =>
    intro n acc p
    simp [applyBitfieldFrom]
  | cons byte bs ih =>
    intro n acc p
    show (applyBitfieldFrom (n + 1) bs (applyBitfieldByte n byte acc)).getD p false = true ↔ _
    rw [ih (n + 1) (applyBitfieldByte n byte acc) p, applyBitfieldByte_getD]
    simp only [applyBitfieldByte_length]
    constructor
    · rintro ((hacc | ⟨b, hb8, hpe, hplt, hset⟩) | ⟨m, b, hm, hb8, hpe, hplt, hset⟩)
      · exact Or.inl hacc
      · refine Or.inr ⟨0, b, by simp, hb8, by simpa using hpe, hplt, by simpa using hset⟩
      · refine Or.inr ⟨m + 1, b, by simp only [List.length_cons]; omega, hb8, ?_, hplt,
          by simpa using hset⟩
        rw [show n + (m + 1) = n + 1 + m by omega]
        exact hpe
    · rintro (hacc | ⟨m, b, hm, hb8, hpe, hplt, hset⟩)
      · exact Or.inl (Or.inl hacc)
      · match m with
        | 0 =>
          exact Or.inl (Or.inr ⟨b, hb8, by simpa using hpe, hplt, by simpa using hset⟩)
        | m + 1 =>
          refine Or.inr ⟨m, b, by simp only [List.length_cons] at hm; omega, hb8, ?_, hplt,
            by simpa using hset⟩
          rw [show n + 1 + m = n + (m + 1) by omega]
          exact hpe

/-- Bitwise test used by the session: `byte & (1 << k) ≠ 0` is the `k`-th
bit of the byte. -/
theorem and_shift_ne_zero (n k : Nat) : n &&& (1 <<< k) ≠ 0 ↔ n.testBit k := by
  rw [Nat.one_shiftLeft, Nat.and_two_pow]
  cases h : n.testBit k <;> simp [h]

/-- The Bitfield arm over a fresh all-`false` availability vector of
length `N`: piece `p < N` ends up available iff byte `p / 8` was
received and its bit `7 − (p mod 8)` is set. -/
theorem applyBitfield_spec (bf : List Byte) (N p : Nat) (hp : p < N) :
    ((applyBitfield bf (List.replicate N false)).getD p false = true ↔
      (p / 8 < bf.length ∧ (bf.getD (p / 8) 0).testBit (7 - p % 8))) := by
  unfold applyBitfield
  rw [applyBitfieldFrom_getD bf 0 (List.replicate N false) p]
  constructor
  · rintro (hacc | ⟨m, b, hm, hb8, hpe, hplt, hset⟩)
    · rw [List.getD_eq_getElem?_getD] at hacc
      rcases Nat.lt_or_ge p N with hlt | hge
      · simp [List.getElem?_replicate, hlt] at hacc
      · omega
    · have hmb : m = p / 8 ∧ b = p % 8 := by omega
      obtain ⟨rfl, rfl⟩ := hmb
      exact ⟨hm, (and_shift_ne_zero _ _).mp hset⟩
  · rintro ⟨hlen, hbit⟩
    refine Or.inr ⟨p / 8, p % 8, hlen, by omega, by omega, by simpa using hp, ?_⟩
    exact (and_shift_ne_zero _ _).mpr hbit

/-- C8: Bitfield decoding is MSB-first.  Starting from the session's
fresh `vec![false; piece_count]`, after processing a received bitfield
the availability vector still has length `N`, piece `p < N` is marked
available exactly when byte `p / 8` exists and its bit `7 − (p mod 8)`
is set (bit positions `≥ N` being ignored), and concretely a bitfield
whose byte 0 is `0b10000001` (with `N ≥ 8`) marks exactly pieces 0 and 7
among pieces `0..7`. -/
theorem c8_bitfield_msb_first (bf : List Byte) (N p : Nat) (hp : p < N) :
    (applyBitfield bf (List.replicate N false)).length = N ∧
    ((applyBitfield bf (List.replicate N false)).getD p false = true ↔
      (p / 8 < bf.length ∧ (bf.getD (p / 8) 0).testBit (7 - p % 8))) ∧
    (∀ rest : List Byte, 8 ≤ N → p < 8 →
      ((applyBitfield (129 :: rest) (List.replicate N false)).getD p false = true ↔
        (p = 0 ∨ p = 7))) := by
  refine ⟨by rw [applyBitfield, applyBitfieldFrom_length, List.length_replicate],
    applyBitfield_spec bf N p hp, ?_⟩
  intro rest hN hp8
  rw [applyBitfield_spec (129 :: rest) N p (by omega)]
  have hdiv : p / 8 = 0 := by omega
  rw [hdiv]
  simp only [List.getD_cons_zero, List.length_cons]
  interval_cases p <;> simp <;> decide

/-- Witness for C8 at the one-byte bitfield `[0b10000001]` with `N = 8`
and piece 7. -/
theorem c8_bitfield_msb_first_witness :
    (applyBitfield [129] (List.replicate 8 false)).length = 8 ∧
    ((applyBitfield [129] (List.replicate 8 false)).getD 7 false = true ↔
      (7 / 8 < [(129 : Byte)].length ∧ ([(129 : Byte)].getD (7 / 8) 0).testBit (7 - 7 % 8)) ) ∧
    ((applyBitfield (129 :: []) (List.replicate 8 false)).getD 7 false = true ↔
      (7 = 0 ∨ 7 = 7)) := by
  have h := c8_bitfield_msb_first [129] 8 7 (by decide)
  exact ⟨h.1, h.2.1, h.2.2 [] (by decide) (by decide)⟩

/-! ### Wire codec lemmas (C4, C5) -/

/-- Reading back the 4 big-endian bytes of a `u32` value. -/
theorem u32FromBE_u32ToBE (n : Nat) (h : n < 2 ^ 32) : u32FromBE (u32ToBE n) = n := by
  simp only [u32ToBE, u32FromBE]
  omega

/-- Big-endian recomposition, first byte. -/
theorem beByte1 (a b c d : Nat) (ha : a < 256) (hb : b < 256) (hc : c < 256)
    (hd : d < 256) : (a * 2 ^ 24 + b * 2 ^ 16 + c * 2 ^ 8 + d) / 2 ^ 24 % 256 = a := by
  omega

/-- Big-endian recomposition, second byte. -/
theorem beByte2 (a b c d : Nat) (ha : a < 256) (hb : b < 256) (hc : c < 256)
    (hd : d < 256) : (a * 2 ^ 24 + b * 2 ^ 16 + c * 2 ^ 8 + d) / 2 ^ 16 % 256 = b := by
  omega

/-- Big-endian recomposition, third byte. -/
theorem beByte3 (a b c d : Nat) (ha : a < 256) (hb : b < 256) (hc : c < 256)
    (hd : d < 256) : (a * 2 ^ 24 + b * 2 ^ 16 + c * 2 ^ 8 + d) / 2 ^ 8 % 256 = c := by
  omega

/-- Big-endian recomposition, fourth byte. -/
theorem beByte4 (a b c d : Nat) (ha : a < 256) (hb : b < 256) (hc : c < 256)
    (hd : d < 256) : (a * 2 ^ 24 + b * 2 ^ 16 + c * 2 ^ 8 + d) % 256 = d := by
  omega

/-- Re-serializing the value read from 4 bytes reproduces the bytes. -/
theorem u32ToBE_u32FromBE (p : List Byte) (hlen : p.length = 4)
    (hbytes : ∀ x ∈ p, x < 256) : u32ToBE (u32FromBE p) = p := by
  obtain ⟨a, b, c, d, rfl⟩ : ∃ a b c d, p = [a, b, c, d] := by
    match p, hlen with
    | [a, b, c, d], _ => exact ⟨a, b, c, d, rfl⟩
  have ha := hbytes a (by simp)
  have hb := hbytes b (by simp)
  have hc := hbytes c (by simp)
  have hd := hbytes d (by simp)
  simp only [u32ToBE, u32FromBE, List.cons.injEq, and_true]
  exact ⟨beByte1 a b c d ha hb hc hd, beByte2 a b c d ha hb hc hd,
    beByte3 a b c d ha hb hc hd, beByte4 a b c d ha hb hc hd⟩

/-- `u32ToBE` always yields 4 bytes. -/
theorem u32ToBE_length (n : Nat) : (u32ToBE n).length = 4 := rfl

/-- `read_exact` on a stream that starts with the wanted `k` bytes. -/
theorem readBytes_front (k : Nat) (a b : List Byte) (h : a.length = k) :
    readBytes k (a ++ b) = some (a, b) := by
  subst h
  rw [readBytes, if_pos (by simp), List.take_left, List.drop_left]

/-- `take` of an append whose first part has exactly the wanted length. -/
theorem take_append_len (k : Nat) (q r : List Byte) (h : q.length = k) :
    (q ++ r).take k = q := List.take_left' h

/-- `drop` of an append whose first part has exactly the dropped length. -/
theorem drop_append_len (k : Nat) (q r : List Byte) (h : q.length = k) :
    (q ++ r).drop k = r := List.drop_left' h

/-- One whole frame at the head of the stream: `Message::read` consumes
the 4-byte length prefix `1 + payload.len()`, the id byte and the
payload, leaving `rest`, and dispatches on the id with the source's
payload-shape checks. -/
theorem readMessage_frame (id : Byte) (payload rest : List Byte)
    (hbound : 1 + payload.length < 2 ^ 32) :
    readMessage (u32ToBE (1 + payload.length) ++ id :: (payload ++ rest)) =
      (match id with
       | 0 => some (Message.Choke, rest)
       | 1 => some (Message.Unchoke, rest)
       | 2 => some (Message.Interested, rest)
       | 3 => some (Message.NotInterested, rest)
       | 4 =>
         if payload.length ≠ 4 then none
         else some (Message.Have (u32FromBE payload), rest)
       | 5 => some (Message.Bitfield payload, rest)
       | 6 =>
         if payload.length ≠ 12 then none
         else some (Message.Request (u32FromBE (payload.take 4))
           (u32FromBE ((payload.drop 4).take 4)) (u32FromBE (payload.drop 8)), rest)
       | 7 =>
         if payload.length < 8 then none
         else some (Message.Piece (u32FromBE (payload.take 4))
           (u32FromBE ((payload.drop 4).take 4)) (payload.drop 8), rest)
       | _ => none) := by
  have h1 : readBytes 4 (u32ToBE (1 + payload.length) ++ id :: (payload ++ rest)) =
      some (u32ToBE (1 + payload.length), id :: (payload ++ rest)) :=
    readBytes_front 4 _ _ (u32ToBE_length _)
  have h2 : u32FromBE (u32ToBE (1 + payload.length)) = 1 + payload.length :=
    u32FromBE_u32ToBE _ hbound
  have h3 : readBytes 1 (id :: (payload ++ rest)) = some ([id], payload ++ rest) :=
    readBytes_front 1 [id] _ rfl
  have h4 : readBytes (1 + payload.length - 1) (payload ++ rest) = some (payload, rest) := by
    rw [show 1 + payload.length - 1 = payload.length from by omega]
    exact readBytes_front _ _ _ rfl
  have h0 : ¬ (1 + payload.length = 0) := by omega
  simp only [readMessage, h1, h2, h3, h4, h0, Option.bind_eq_bind, Option.some_bind,
    if_false, List.getD_cons_zero, reduceCtorEq, ite_false]
  rcases id with _ | _ | _ | _ | _ | _ | _ | _ | id <;> rfl

/-- The same frame with nothing after it. -/
theorem readMessage_frame_nil (id : Byte) (payload : List Byte)
    (hbound : 1 + payload.length < 2 ^ 32) :
    readMessage (u32ToBE (1 + payload.length) ++ id :: payload) =
      (match id with
       | 0 => some (Message.Choke, ([] : List Byte))
       | 1 => some (Message.Unchoke, [])
       | 2 => some (Message.Interested, [])
       | 3 => some (Message.NotInterested, [])
       | 4 =>
         if payload.length ≠ 4 then none
         else some (Message.Have (u32FromBE payload), [])
       | 5 => some (Message.Bitfield payload, [])
       | 6 =>
         if payload.length ≠ 12 then none
         else some (Message.Request (u32FromBE (payload.take 4))
           (u32FromBE ((payload.drop 4).take 4)) (u32FromBE (payload.drop 8)), [])
       | 7 =>
         if payload.length < 8 then none
         else some (Message.Piece (u32FromBE (payload.take 4))
           (u32FromBE ((payload.drop 4).take 4)) (payload.drop 8), [])
       | _ => none) := by
  have h := readMessage_frame id payload [] hbound
  rwa [List.append_nil] at h

/-- A zero length prefix is KeepAlive; the rest of the stream is untouched. -/
theorem readMessage_keepalive (rest : List Byte) :
    readMessage (u32ToBE 0 ++ rest) = some (Message.KeepAlive, rest) := by
  have h1 : readBytes 4 (u32ToBE 0 ++ rest) = some (u32ToBE 0, rest) :=
    readBytes_front 4 _ _ (u32ToBE_length _)
  simp only [readMessage, h1, Option.bind_eq_bind, Option.some_bind]
  rfl

/-- Serialize-then-parse: every `Message` value the Rust type can hold
(fields in `u32`), whose variable-length frame fits a `u32`, is read
back exactly, consuming the whole frame. -/
theorem readMessage_serialize (m : Message) (hwf : m.wf) (hfit : m.frameFits) :
    readMessage m.serialize = some (m, []) := by
  cases m with
  | KeepAlive => rfl
  | Choke => rfl
  | Unchoke => rfl
  | Interested => rfl
  | NotInterested => rfl
  | Have index =>
    have hidx : index < 2 ^ 32 := hwf
    have hshape : (Message.Have index).serialize =
        u32ToBE (1 + (u32ToBE index).length) ++ 4 :: u32ToBE index := by
      rw [u32ToBE_length]
      show [0, 0, 0, 5, 4] ++ u32ToBE index = u32ToBE 5 ++ 4 :: u32ToBE index
      rfl
    rw [hshape, readMessage_frame_nil 4 (u32ToBE index) (by rw [u32ToBE_length]; omega)]
    simp [u32ToBE_length, u32FromBE_u32ToBE index hidx]
  | Bitfield payload =>
    have hbound : 1 + payload.length < 2 ^ 32 := hfit
    have hshape : (Message.Bitfield payload).serialize =
        u32ToBE (1 + payload.length) ++ 5 :: payload := by
      show u32ToBE ((1 + payload.length % 2 ^ 32) % 2 ^ 32) ++ [5] ++ payload = _
      rw [show (1 + payload.length % 2 ^ 32) % 2 ^ 32 = 1 + payload.length from by omega]
      rfl
    rw [hshape, readMessage_frame_nil 5 payload hbound]
  | Request index begin length =>
    obtain ⟨hi, hb, hl⟩ : index < 2 ^ 32 ∧ begin < 2 ^ 32 ∧ length < 2 ^ 32 := hwf
    have hlen12 : (u32ToBE index ++ (u32ToBE begin ++ u32ToBE length)).length = 12 := by
      simp [u32ToBE]
    have hshape : (Message.Request index begin length).serialize =
        u32ToBE (1 + (u32ToBE index ++ (u32ToBE begin ++ u32ToBE length)).length) ++
          6 :: (u32ToBE index ++ (u32ToBE begin ++ u32ToBE length)) := by
      rw [hlen12]
      show [0, 0, 0, 13, 6] ++ (u32ToBE index ++ (u32ToBE begin ++ u32ToBE length)) =
        u32ToBE 13 ++ 6 :: (u32ToBE index ++ (u32ToBE begin ++ u32ToBE length))
      rfl
    rw [hshape, readMessage_frame_nil 6 _ (by rw [hlen12]; omega)]
    have ht1 : (u32ToBE index ++ (u32ToBE begin ++ u32ToBE length)).take 4 = u32ToBE index :=
      take_append_len 4 _ _ (u32ToBE_length _)
    have hd1 : (u32ToBE index ++ (u32ToBE begin ++ u32ToBE length)).drop 4 =
        u32ToBE begin ++ u32ToBE length :=
      drop_append_len 4 _ _ (u32ToBE_length _)
    have ht2 : (u32ToBE begin ++ u32ToBE length).take 4 = u32ToBE begin :=
      take_append_len 4 _ _ (u32ToBE_length _)
    have hd8 : (u32ToBE index ++ (u32ToBE begin ++ u32ToBE length)).drop 8 = u32ToBE length := by
      rw [show (8 : Nat) = 4 + 4 from rfl, ← List.drop_drop, hd1]
      exact drop_append_len 4 _ _ (u32ToBE_length _)
    simp [hlen12, ht1, hd1, ht2, hd8, u32FromBE_u32ToBE index hi,
      u32FromBE_u32ToBE begin hb, u32FromBE_u32ToBE length hl]
  | Piece index begin block =>
    obtain ⟨hi, hb⟩ : index < 2 ^ 32 ∧ begin < 2 ^ 32 := hwf
    have hfit' : 1 + 4 + 4 + block.length < 2 ^ 32 := hfit
    have hplen : (u32ToBE index ++ (u32ToBE begin ++ block)).length = 8 + block.length := by
      simp [u32ToBE]
      omega
    have harg : (1 + 4 + 4 + block.length % 2 ^ 32) % 2 ^ 32 =
        1 + (u32ToBE index ++ (u32ToBE begin ++ block)).length := by
      rw [hplen]; omega
    have hshape : (Message.Piece index begin block).serialize =
        u32ToBE (1 + (u32ToBE index ++ (u32ToBE begin ++ block)).length) ++
          7 :: (u32ToBE index ++ (u32ToBE begin ++ block)) := by
      show u32ToBE ((1 + 4 + 4 + block.length % 2 ^ 32) % 2 ^ 32) ++
        [7] ++ (u32ToBE index ++ (u32ToBE begin ++ block)) = _
      rw [harg]
      rfl
    rw [hshape, readMessage_frame_nil 7 _ (by rw [hplen]; omega)]
    have ht1 : (u32ToBE index ++ (u32ToBE begin ++ block)).take 4 = u32ToBE index :=
      take_append_len 4 _ _ (u32ToBE_length _)
    have hd1 : (u32ToBE index ++ (u32ToBE begin ++ block)).drop 4 = u32ToBE begin ++ block :=
      drop_append_len 4 _ _ (u32ToBE_length _)
    have ht2 : (u32ToBE begin ++ block).take 4 = u32ToBE begin :=
      take_append_len 4 _ _ (u32ToBE_length _)
    have hd8 : (u32ToBE index ++ (u32ToBE begin ++ block)).drop 8 = block := by
      rw [show (8 : Nat) = 4 + 4 from rfl, ← List.drop_drop, hd1]
      exact drop_append_len 4 _ _ (u32ToBE_length _)
    simp [hplen, ht1, hd1, ht2, hd8, u32FromBE_u32ToBE index hi, u32FromBE_u32ToBE begin hb]

/-- Parse-then-serialize: every frame of the spec's table parses
successfully, consuming exactly itself, and re-serializing the parsed
message reproduces the frame byte for byte. -/
theorem serialize_readMessage (b : List Byte) (hwf : WellFormedFrame b) :
    ∃ m : Message, readMessage b = some (m, []) ∧ m.serialize = b := by
  obtain ⟨hbytes, hcase⟩ := hwf
  rcases hcase with rfl | ⟨id, hid, rfl⟩ | ⟨p, hlen, rfl⟩ | ⟨p, hbound, rfl⟩ |
    ⟨p, hlen, rfl⟩ | ⟨p, hlen8, hbound, rfl⟩
  · exact ⟨.KeepAlive, rfl, rfl⟩
  · interval_cases id
    · exact ⟨.Choke, rfl, rfl⟩
    · exact ⟨.Unchoke, rfl, rfl⟩
    · exact ⟨.Interested, rfl, rfl⟩
    · exact ⟨.NotInterested, rfl, rfl⟩
  · -- Have frame
    refine ⟨.Have (u32FromBE p), ?_, ?_⟩
    · have hshape : [0, 0, 0, 5, 4] ++ p = u32ToBE (1 + p.length) ++ 4 :: p := by
        rw [hlen]
        rfl
      rw [hshape, readMessage_frame_nil 4 p (by omega)]
      simp [hlen]
    · show [0, 0, 0, 5, 4] ++ u32ToBE (u32FromBE p) = [0, 0, 0, 5, 4] ++ p
      rw [u32ToBE_u32FromBE p hlen
        (fun x hx => hbytes x (List.mem_append_right _ hx))]
  · -- Bitfield frame
    refine ⟨.Bitfield p, ?_, ?_⟩
    · rw [readMessage_frame_nil 5 p hbound]
    · show u32ToBE ((1 + p.length % 2 ^ 32) % 2 ^ 32) ++ [5] ++ p =
        u32ToBE (1 + p.length) ++ 5 :: p
      rw [show (1 + p.length % 2 ^ 32) % 2 ^ 32 = 1 + p.length from by omega]
      rfl
  · -- Request frame
    have hsub : ∀ x ∈ p, x < 256 :=
      fun x hx => hbytes x (List.mem_append_right _ hx)
    have ht1 : (p.take 4).length = 4 := by rw [List.length_take, hlen]; omega
    have ht2 : ((p.drop 4).take 4).length = 4 := by
      rw [List.length_take, List.length_drop, hlen]; omega
    have ht3 : (p.drop 8).length = 4 := by rw [List.length_drop, hlen]
    refine ⟨.Request (u32FromBE (p.take 4)) (u32FromBE ((p.drop 4).take 4))
      (u32FromBE (p.drop 8)), ?_, ?_⟩
    · have hshape : [0, 0, 0, 13, 6] ++ p = u32ToBE (1 + p.length) ++ 6 :: p := by
        rw [hlen]
        rfl
      rw [hshape, readMessage_frame_nil 6 p (by omega)]
      simp [hlen]
    · show [0, 0, 0, 13, 6] ++
        (u32ToBE (u32FromBE (p.take 4)) ++
          (u32ToBE (u32FromBE ((p.drop 4).take 4)) ++ u32ToBE (u32FromBE (p.drop 8)))) =
        [0, 0, 0, 13, 6] ++ p
      rw [u32ToBE_u32FromBE _ ht1 (fun x hx => hsub x (List.take_subset _ _ hx)),
        u32ToBE_u32FromBE _ ht2
          (fun x hx => hsub x (List.drop_subset _ _ (List.take_subset _ _ hx))),
        u32ToBE_u32FromBE _ ht3 (fun x hx => hsub x (List.drop_subset _ _ hx))]
      rw [show p.drop 8 = (p.drop 4).drop 4 from by rw [List.drop_drop],
        List.take_append_drop, List.take_append_drop]
  · -- Piece frame
    have hsub : ∀ x ∈ p, x < 256 :=
      fun x hx => hbytes x (List.mem_append_right _ (List.mem_cons_of_mem _ hx))
    have ht1 : (p.take 4).length = 4 := by rw [List.length_take]; omega
    have ht2 : ((p.drop 4).take 4).length = 4 := by
      rw [List.length_take, List.length_drop]; omega
    refine ⟨.Piece (u32FromBE (p.take 4)) (u32FromBE ((p.drop 4).take 4)) (p.drop 8),
      ?_, ?_⟩
    · rw [readMessage_frame_nil 7 p hbound]
      simp [Nat.not_lt.mpr hlen8]
    · show u32ToBE ((1 + 4 + 4 + (p.drop 8).length % 2 ^ 32) % 2 ^ 32) ++
        [7] ++ (u32ToBE (u32FromBE (p.take 4)) ++
          (u32ToBE (u32FromBE ((p.drop 4).take 4)) ++ p.drop 8)) =
        u32ToBE (1 + p.length) ++ 7 :: p
      have hdlen : (p.drop 8).length = p.length - 8 := List.length_drop ..
      rw [show (1 + 4 + 4 + (p.drop 8).length % 2 ^ 32) % 2 ^ 32 = 1 + p.length from by
        rw [hdlen]; omega]
      rw [u32ToBE_u32FromBE _ ht1 (fun x hx => hsub x (List.take_subset _ _ hx)),
        u32ToBE_u32FromBE _ ht2
          (fun x hx => hsub x (List.drop_subset _ _ (List.take_subset _ _ hx)))]
      rw [show p.drop 8 = (p.drop 4).drop 4 from by rw [List.drop_drop],
        List.take_append_drop, List.take_append_drop]
      rfl

/-- C4 (amended: the `Bitfield` payload must — like the `Piece` block —
be small enough that the `u32` frame length `1 + payload.len()` does not
wrap): the wire codec round-trips.  Parsing `serialize(m)` yields
exactly `m` (consuming the whole frame) for every `Message` the Rust
type can hold whose frame length fits a `u32`; and for every well-formed
frame `b` of the spec's table, serializing the parse of `b` reproduces
`b` byte for byte. -/
theorem c4_wire_codec_bijection :
    (∀ m : Message, m.wf → m.frameFits → readMessage m.serialize = some (m, [])) ∧
    (∀ b : List Byte, WellFormedFrame b →
      ∃ m : Message, readMessage b = some (m, []) ∧ m.serialize = b) :=
  ⟨fun m hwf hfit => readMessage_serialize m hwf hfit,
   fun b hwf => serialize_readMessage b hwf⟩

/-- Witness for C4: the spec's own example frame
`Request{index=1, begin=0, length=16384}` round-trips, and the concrete
Unchoke frame `00 00 00 01 01` parses and re-serializes to itself. -/
theorem c4_wire_codec_bijection_witness :
    readMessage ((Message.Request 1 0 16384).serialize) =
      some (Message.Request 1 0 16384, []) ∧
    (∃ m : Message, readMessage [0, 0, 0, 1, 1] = some (m, []) ∧
      m.serialize = [0, 0, 0, 1, 1]) :=
  ⟨c4_wire_codec_bijection.1 (Message.Request 1 0 16384)
      ⟨by norm_num, by norm_num, by norm_num⟩ trivial,
   c4_wire_codec_bijection.2 [0, 0, 0, 1, 1]
      ⟨by decide, Or.inr (Or.inl ⟨1, by norm_num, rfl⟩)⟩⟩

/-- Counterexample to C4 as frozen: the claim bounds only the `Piece`
block, but `Message::serialize` computes the Bitfield length prefix as
`1 + payload.len() as u32`.  For a Bitfield payload of `2^32` zero
bytes (a value the Rust type holds, its bytes all `< 256`) the `as u32`
cast truncates `2^32` to `0`, the frame's length prefix becomes 1, and
parsing the serialization returns `Bitfield []` with the whole payload
left over — not the original message. -/
theorem c4_wire_codec_bijection_counterexample :
    (∀ x ∈ List.replicate (2 ^ 32) (0 : Byte), x < 256) ∧
    readMessage ((Message.Bitfield (List.replicate (2 ^ 32) 0)).serialize) ≠
      some (Message.Bitfield (List.replicate (2 ^ 32) 0), []) := by
  have hlen : (List.replicate (2 ^ 32) (0 : Byte)).length = 2 ^ 32 :=
    List.length_replicate ..
  constructor
  · intro x hx
    rw [List.eq_of_mem_replicate hx]
    norm_num
  · have hshape : (Message.Bitfield (List.replicate (2 ^ 32) 0)).serialize =
        u32ToBE 1 ++ 5 :: List.replicate (2 ^ 32) 0 := by
      show u32ToBE ((1 + (List.replicate (2 ^ 32) (0 : Byte)).length % 2 ^ 32) % 2 ^ 32) ++
        [5] ++ List.replicate (2 ^ 32) 0 = _
      rw [hlen]
      norm_num
    have hread : readMessage (u32ToBE 1 ++ 5 :: List.replicate (2 ^ 32) 0) =
        some (Message.Bitfield [], List.replicate (2 ^ 32) 0) := by
      have h := readMessage_frame 5 [] (List.replicate (2 ^ 32) 0) (by norm_num)
      simp only [List.nil_append, List.length_nil] at h
      exact h
    rw [hshape, hread]
    intro hcontra
    injection hcontra with hpair
    injection hpair with hmsg hrest
    rw [hrest] at hlen
    simp at hlen

/-- C5: the parser errs exactly on malformed frames.  With the frame's
length prefix `1 + payload.len()` (fitting a `u32`): a Have frame whose
payload is not 4 bytes, a Request frame whose payload is not 12 bytes, a
Piece frame whose payload is under 8 bytes, and any frame with id above
7 all make `Message::read` fail; a zero length prefix yields KeepAlive;
and frames with ids 0–3 parse successfully whatever their payload. -/
theorem c5_parser_rejects_malformed (payload rest : List Byte)
    (hbound : 1 + payload.length < 2 ^ 32) :
    (payload.length ≠ 4 →
      readMessage (u32ToBE (1 + payload.length) ++ 4 :: (payload ++ rest)) = none) ∧
    (payload.length ≠ 12 →
      readMessage (u32ToBE (1 + payload.length) ++ 6 :: (payload ++ rest)) = none) ∧
    (payload.length < 8 →
      readMessage (u32ToBE (1 + payload.length) ++ 7 :: (payload ++ rest)) = none) ∧
    (∀ id : Nat, 7 < id →
      readMessage (u32ToBE (1 + payload.length) ++ id :: (payload ++ rest)) = none) ∧
    readMessage (u32ToBE 0 ++ rest) = some (Message.KeepAlive, rest) ∧
    readMessage (u32ToBE (1 + payload.length) ++ 0 :: (payload ++ rest)) =
      some (Message.Choke, rest) ∧
    readMessage (u32ToBE (1 + payload.length) ++ 1 :: (payload ++ rest)) =
      some (Message.Unchoke, rest) ∧
    readMessage (u32ToBE (1 + payload.length) ++ 2 :: (payload ++ rest)) =
      some (Message.Interested, rest) ∧
    readMessage (u32ToBE (1 + payload.length) ++ 3 :: (payload ++ rest)) =
      some (Message.NotInterested, rest) := by
  refine ⟨?_, ?_, ?_, ?_, readMessage_keepalive rest, ?_, ?_, ?_, ?_⟩
  · intro hne
    rw [readMessage_frame 4 payload rest hbound]
    simp [hne]
  · intro hne
    rw [readMessage_frame 6 payload rest hbound]
    simp [hne]
  · intro hlt
    rw [readMessage_frame 7 payload rest hbound]
    simp [hlt]
  · intro id hid
    rw [readMessage_frame id payload rest hbound]
    rcases id with _ | _ | _ | _ | _ | _ | _ | _ | id
    all_goals first | omega | rfl
  · rw [readMessage_frame 0 payload rest hbound]
  · rw [readMessage_frame 1 payload rest hbound]
  · rw [readMessage_frame 2 payload rest hbound]
  · rw [readMessage_frame 3 payload rest hbound]

/-- Witness for C5 with the 3-byte payload `[0,0,0]`: a Have frame with
that payload is rejected, a zero length prefix is KeepAlive, and a Choke
frame with that (ignored) payload still parses. -/
theorem c5_parser_rejects_malformed_witness :
    readMessage (u32ToBE (1 + [0, 0, 0].length) ++ 4 :: ([0, 0, 0] ++ [])) = none ∧
    readMessage (u32ToBE 0 ++ []) = some (Message.KeepAlive, []) ∧
    readMessage (u32ToBE (1 + [0, 0, 0].length) ++ 0 :: ([0, 0, 0] ++ [])) =
      some (Message.Choke, []) := by
  have h := c5_parser_rejects_malformed [0, 0, 0] [] (by norm_num)
  exact ⟨h.1 (by norm_num), h.2.2.2.2.1, h.2.2.2.2.2.1⟩

/-! ### Piece sizes sum to the total length (C3) -/

/-- C3 (amended: additionally `piece_length < 2^32`, so the `as u32`
narrowing in `calculate_piece_size` is lossless): for a valid metainfo —
`pieces.len()` a positive multiple of 20, `piece_length > 0`, and
`⌈total_length / piece_length⌉ = N = pieces.len()/20`, the ceiling
condition spelled out as `(N−1)·piece_length < total_length ≤
N·piece_length` — the piece sizes sum to `total_length()`: every piece
but the last has size `piece_length`, and the last has the remainder
(or a full `piece_length` when the remainder is 0). -/
theorem c3_piece_sizes_sum_to_total (t : Torrent)
    (hmul : t.info.pieces.length % 20 = 0) (hpos : 0 < t.info.pieces.length)
    (hpl : 0 < t.info.piece_length) (hpl32 : t.info.piece_length < 2 ^ 32)
    (hlo : ((t.info.pieces.length / 20 - 1 : Nat) : Int) * (t.info.piece_length : Int) <
      t.totalLength)
    (hhi : t.totalLength ≤
      ((t.info.pieces.length / 20 : Nat) : Int) * (t.info.piece_length : Int)) :
    ∑ i in Finset.range (t.info.pieces.length / 20), (t.calculatePieceSize i : Int) =
      t.totalLength := by
  have hN1 : 1 ≤ t.info.pieces.length / 20 := by omega
  have hplI : (0 : Int) < (t.info.piece_length : Int) := by exact_mod_cast hpl
  have hTpos : (0 : Int) < t.totalLength := lt_of_le_of_lt (by positivity) hlo
  have hu64 : u64ToI64 t.info.piece_length = (t.info.piece_length : Int) := by
    rw [u64ToI64, if_pos (by omega : t.info.piece_length < 2 ^ 63)]
  have hmid : ∀ i, i ≠ t.info.pieces.length / 20 - 1 →
      t.calculatePieceSize i = t.info.piece_length := by
    intro i hi
    simp only [Torrent.calculatePieceSize]
    rw [if_neg hi]
    exact Nat.mod_eq_of_lt hpl32
  have htm : Int.tmod t.totalLength (t.info.piece_length : Int) =
      t.totalLength % (t.info.piece_length : Int) :=
    Int.tmod_eq_emod (le_of_lt hTpos) (le_of_lt hplI)
  have hdm := Int.ediv_add_emod t.totalLength (t.info.piece_length : Int)
  have hr0 : 0 ≤ t.totalLength % (t.info.piece_length : Int) :=
    Int.emod_nonneg _ (ne_of_gt hplI)
  have hrlt : t.totalLength % (t.info.piece_length : Int) < (t.info.piece_length : Int) :=
    Int.emod_lt_of_pos _ hplI
  have hcastN : ((t.info.pieces.length / 20 - 1 : Nat) : Int) =
      ((t.info.pieces.length / 20 : Nat) : Int) - 1 := by
    push_cast [hN1]
    ring
  rw [show t.info.pieces.length / 20 = (t.info.pieces.length / 20 - 1) + 1 from by omega,
    Finset.sum_range_succ]
  have hconst : ∀ i ∈ Finset.range (t.info.pieces.length / 20 - 1),
      (t.calculatePieceSize i : Int) = (t.info.piece_length : Int) := by
    intro i hi
    rw [hmid i (by simp at hi; omega)]
  rw [Finset.sum_congr rfl hconst, Finset.sum_const, Finset.card_range, nsmul_eq_mul]
  simp only [Torrent.calculatePieceSize, if_true]
  rw [hu64, htm]
  by_cases hr : t.totalLength % (t.info.piece_length : Int) = 0
  · rw [if_pos hr]
    have hq : t.totalLength / (t.info.piece_length : Int) =
        ((t.info.pieces.length / 20 : Nat) : Int) := by
      have h1 : ((t.info.pieces.length / 20 : Nat) : Int) - 1 <
          t.totalLength / (t.info.piece_length : Int) := by
        have := hlo
        rw [hcastN] at this
        have h2 : (t.info.piece_length : Int) *
            (((t.info.pieces.length / 20 : Nat) : Int) - 1) <
            (t.info.piece_length : Int) * (t.totalLength / (t.info.piece_length : Int)) := by
          rw [Int.mul_comm (t.info.piece_length : Int)
            (((t.info.pieces.length / 20 : Nat) : Int) - 1)]
          omega
        exact (mul_lt_mul_left hplI).mp h2
      have h3 : t.totalLength / (t.info.piece_length : Int) ≤
          ((t.info.pieces.length / 20 : Nat) : Int) := by
        have h4 : (t.info.piece_length : Int) * (t.totalLength / (t.info.piece_length : Int)) ≤
            (t.info.piece_length : Int) * ((t.info.pieces.length / 20 : Nat) : Int) := by
          rw [Int.mul_comm (t.info.piece_length : Int)
            ((t.info.pieces.length / 20 : Nat) : Int)]
          omega
        exact (mul_le_mul_left hplI).mp h4
      omega
    rw [show u64ToU32 t.info.piece_length = t.info.piece_length from Nat.mod_eq_of_lt hpl32,
      hcastN]
    have hT : t.totalLength =
        (t.info.piece_length : Int) * ((t.info.pieces.length / 20 : Nat) : Int) := by
      rw [← hq]
      omega
    rw [hT]
    ring
  · rw [if_neg hr]
    have hq : t.totalLength / (t.info.piece_length : Int) =
        ((t.info.pieces.length / 20 : Nat) : Int) - 1 := by
      have h1 : ((t.info.pieces.length / 20 : Nat) : Int) - 1 <
          t.totalLength / (t.info.piece_length : Int) + 1 := by
        have h2 : (t.info.piece_length : Int) *
            (((t.info.pieces.length / 20 : Nat) : Int) - 1) <
            (t.info.piece_length : Int) * (t.totalLength / (t.info.piece_length : Int) + 1) := by
          rw [Int.mul_comm (t.info.piece_length : Int)
            (((t.info.pieces.length / 20 : Nat) : Int) - 1)]
          rw [Int.mul_add]
          have := hlo
          rw [hcastN] at this
          omega
        exact (mul_lt_mul_left hplI).mp h2
      have h3 : t.totalLength / (t.info.piece_length : Int) <
          ((t.info.pieces.length / 20 : Nat) : Int) := by
        have h4 : (t.info.piece_length : Int) * (t.totalLength / (t.info.piece_length : Int)) <
            (t.info.piece_length : Int) * ((t.info.pieces.length / 20 : Nat) : Int) := by
          rw [Int.mul_comm (t.info.piece_length : Int)
            ((t.info.pieces.length / 20 : Nat) : Int)]
          omega
        exact (mul_lt_mul_left hplI).mp h4
      omega
    have hsmall : t.totalLength % (t.info.piece_length : Int) % 2 ^ 32 =
        t.totalLength % (t.info.piece_length : Int) :=
      Int.emod_eq_of_lt hr0
        (lt_trans hrlt (by exact_mod_cast hpl32))
    rw [i64ToU32, hsmall, hcastN, Int.toNat_of_nonneg hr0]
    rw [hq] at hdm
    linear_combination hdm

/-- Witness for C3 at the three-piece torrent (`piece_length = 4`,
`total_length = 10`): `4 + 4 + 2 = 10`. -/
theorem c3_piece_sizes_sum_to_total_witness :
    ∑ i in Finset.range (lastPieceTorrent.info.pieces.length / 20),
      (lastPieceTorrent.calculatePieceSize i : Int) = lastPieceTorrent.totalLength :=
  c3_piece_sizes_sum_to_total lastPieceTorrent (by decide) (by decide) (by decide)
    (by decide) (by decide) (by decide)

/-- Counterexample to C3 as frozen: the claim's validity conditions put
no upper bound on `piece_length`, but `calculate_piece_size` returns
`u32`.  For the valid single-piece metainfo with
`piece_length = total_length = 2^32` the `as u32` cast truncates the
piece size to 0, so the sizes sum to 0, not to `total_length`. -/
theorem c3_piece_sizes_sum_counterexample :
    hugePieceTorrent.info.pieces.length % 20 = 0 ∧
    0 < hugePieceTorrent.info.pieces.length ∧
    0 < hugePieceTorrent.info.piece_length ∧
    ((hugePieceTorrent.info.pieces.length / 20 - 1 : Nat) : Int) *
        (hugePieceTorrent.info.piece_length : Int) < hugePieceTorrent.totalLength ∧
    hugePieceTorrent.totalLength ≤
      ((hugePieceTorrent.info.pieces.length / 20 : Nat) : Int) *
        (hugePieceTorrent.info.piece_length : Int) ∧
    ∑ i in Finset.range (hugePieceTorrent.info.pieces.length / 20),
        (hugePieceTorrent.calculatePieceSize i : Int) ≠ hugePieceTorrent.totalLength := by
  refine ⟨by decide, by decide, by decide, by decide, by decide, ?_⟩
  rw [show hugePieceTorrent.info.pieces.length / 20 = 1 from by decide,
    Finset.sum_range_one,
    show hugePieceTorrent.calculatePieceSize 0 = 0 from by decide]
  decide

end P2P
